import Mathlib

/-!
Verification development for the Orio annotated-fixture repository.

The repository ships three annotated C sources:
  * `testsuite.v.01/NorHor.v.02.01/hessian/pluto/haxpy3.ancc.c`
  * `testsuite/axpy4.c`
  * `testsuite/regression/cuda/sources/vecSum.c`
Each carries a `PerfTuning` tuning specification and an annotated loop nest.
The autotuning engine those annotations presuppose is not part of the
repository; where a claim is about the engine, the engine's behaviour is
modelled from the specification's words (each such definition says so in
its doc comment).  The loop bodies of the fixtures themselves are embedded
directly from the C sources.
-/

namespace Orio

/-! ## The haxpy3 fixture's two loop bodies (source embedding)

`haxpy3.ancc.c` writes the update of `Y[i][j]` twice: once inside the
`Loop` annotated region (lines 97-103, with the cross terms expanded) and
once as the fallback baseline loop after the annotated region
(lines 111-117, with the cross terms factored).  Arrays are embedded as
total functions and the C `double` arithmetic is read exactly, over `ℚ`. -/

/-- Right-hand side of `Y[i][j] = ...` inside the annotated `Loop` region of
haxpy3.ancc.c (lines 97-103): the `b01`, `b02`, `b12` cross terms appear
expanded, e.g. `b01*u0[i]*u1[j] + b01*u1[i]*u0[j]`. -/
def annotBody (a0 a1 a2 b00 b01 b02 b11 b12 b22 : ℚ)
    (X0 X1 X2 : ℕ → ℕ → ℚ) (u0 u1 u2 : ℕ → ℚ) (i j : ℕ) : ℚ :=
  a0 * X0 i j + a1 * X1 i j + a2 * X2 i j
    + 2 * b00 * u0 i * u0 j
    + 2 * b11 * u1 i * u1 j
    + 2 * b22 * u2 i * u2 j
    + b01 * u0 i * u1 j + b01 * u1 i * u0 j
    + b02 * u0 i * u2 j + b02 * u2 i * u0 j
    + b12 * u1 i * u2 j + b12 * u2 i * u1 j

/-- Right-hand side of `Y[i][j] = ...` in the fallback baseline loop of
haxpy3.ancc.c (lines 111-117): the cross terms appear factored, e.g.
`b01*(u0[i]*u1[j] + u1[i]*u0[j])`. -/
def baselineBody (a0 a1 a2 b00 b01 b02 b11 b12 b22 : ℚ)
    (X0 X1 X2 : ℕ → ℕ → ℚ) (u0 u1 u2 : ℕ → ℚ) (i j : ℕ) : ℚ :=
  a0 * X0 i j + a1 * X1 i j + a2 * X2 i j
    + 2 * b00 * u0 i * u0 j
    + 2 * b11 * u1 i * u1 j
    + 2 * b22 * u2 i * u2 j
    + b01 * (u0 i * u1 j + u1 i * u0 j)
    + b02 * (u0 i * u2 j + u2 i * u0 j)
    + b12 * (u1 i * u2 j + u2 i * u1 j)

/-! ## The VecSum loop (source embedding)

`vecSum.c` declares `void VecSum(int n, double *x, double s)` whose loop
(lines 11-12) is `for (i=0; i<=n-1; i++) s=s+x[i];`.  The loop state is the
local accumulator `s` together with the pointed-to array `x` (embedded as a
total function, so that "no element of `x` is written" is a statement about
the final state).  The loop runs `i = 0, 1, ..., n-1`, i.e. `n.toNat`
iterations, since `int n` may be non-positive. -/

structure VecState where
  s : ℚ
  x : ℤ → ℚ

/-- One iteration of the VecSum loop body `s = s + x[i];` at index `i`. -/
def vecSumStep (st : VecState) (i : ℤ) : VecState :=
  { s := st.s + st.x i, x := st.x }

/-- The whole loop `for (i=0; i<=n-1; i++) s=s+x[i];` of `VecSum`:
iterate the body over `i = 0, ..., n-1` (no iterations when `n <= 0`). -/
def vecSumRun (n : ℤ) (st : VecState) : VecState :=
  ((List.range n.toNat).map (fun k => (k : ℤ))).foldl vecSumStep st

theorem vecSum_foldl_spec (l : List ℤ) (st : VecState) :
    (l.foldl vecSumStep st).x = st.x
      ∧ (l.foldl vecSumStep st).s = st.s + (l.map st.x).sum := by
  induction l generalizing st with
  | nil => simp
  | cons i rest ih =>
    obtain ⟨hx, hs⟩ := ih (vecSumStep st i)
    refine ⟨by simpa [vecSumStep] using hx, ?_⟩
    simp only [List.foldl_cons, List.map_cons, List.sum_cons]
    rw [hs]
    simp [vecSumStep]
    ring

/-- C10: after the `VecSum` loop the accumulator `s` equals its input value
plus `x[0] + ... + x[n-1]`, the array `x` is not written (the final state's
array equals the initial one), and when `n <= 0` the loop performs zero
iterations, leaving the whole state unchanged. -/
theorem vecSum_correct (n : ℤ) (st : VecState) :
    (vecSumRun n st).x = st.x
      ∧ (vecSumRun n st).s
          = st.s + ((List.range n.toNat).map (fun k => st.x (k : ℤ))).sum
      ∧ (n ≤ 0 → vecSumRun n st = st) := by
  obtain ⟨hx, hs⟩ := vecSum_foldl_spec ((List.range n.toNat).map (fun k => (k : ℤ))) st
  refine ⟨hx, ?_, ?_⟩
  · rw [vecSumRun, hs, List.map_map]
    rfl
  · intro hn
    have : n.toNat = 0 := Int.toNat_of_nonpos hn
    simp [vecSumRun, this]

/-! ## Parameter Space Generator (modelled from the spec)

The engine is not part of the repository; these definitions are modelled
from the specification.  A `TuningSpec` carries an ordered list of
parameters (a symbol with an explicit finite domain of literal values, as
in the `performance_params` blocks of the fixtures) and a list of
constraints, each a boolean predicate over assignments. -/

/-- A literal parameter value: the fixtures' domains hold numbers
(e.g. `param U1i[] = [1]`) and booleans (e.g. `param SCREP[] = [True]`). -/
inductive Val where
  | int : ℤ → Val
  | bool : Bool → Val
deriving DecidableEq

abbrev Symbol := String

abbrev Domain := List Val

/-- A fully-bound choice of concrete values for all tunable parameters,
in declaration order. -/
abbrev Assignment := List (Symbol × Val)

/-- Modelled from the spec: a `TuningSpec` holds the declared parameters
(ordered map symbol to domain) and the constraint predicates; the other
fields (build command, repetitions, search options, input declarations)
play no role in the Parameter Space Generator and are omitted. -/
structure TuningSpec where
  parameters : List (Symbol × Domain)
  constraints : List (Assignment → Bool)

/-- The full cross-product of the parameter domains, in domain order. -/
def crossProduct : List (Symbol × Domain) → List Assignment
  | [] => [[]]
  | (s, dom) :: rest =>
      (dom.map fun v => (crossProduct rest).map fun a => (s, v) :: a).flatten

/-- Modelled from the spec: the Parameter Space Generator expands the
domains into the cross-product and filters out every assignment violating
any constraint.  It is a pure function of the `TuningSpec`, so a full
traversal of the yielded sequence gives the same filtered set for the
same spec. -/
def generate (spec : TuningSpec) : List Assignment :=
  (crossProduct spec.parameters).filter fun a =>
    spec.constraints.all fun c => c a

/-- An assignment conforms to a parameter list when it binds exactly the
declared symbols, in order, each to a value of its domain. -/
def conforms : Assignment → List (Symbol × Domain) → Prop
  | [], [] => True
  | (s, v) :: a, (s', dom) :: ps => s = s' ∧ v ∈ dom ∧ conforms a ps
  | _ :: _, [] => False
  | [], _ :: _ => False

theorem mem_crossProduct (ps : List (Symbol × Domain)) (a : Assignment) :
    a ∈ crossProduct ps ↔ conforms a ps := by
  induction ps generalizing a with
  | nil =>
    cases a with
    | nil => simp [crossProduct, conforms]
    | cons p a' => simp [crossProduct, conforms]
  | cons p rest ih =>
    obtain ⟨s, dom⟩ := p
    cases a with
    | nil =>
      simp only [crossProduct, List.mem_flatten, List.mem_map, conforms]
      constructor
      · rintro ⟨l, ⟨v, _, rfl⟩, hl⟩
        simp only [List.mem_map] at hl
        obtain ⟨a', _, h⟩ := hl
        exact absurd h (by simp)
      · exact False.elim
    | cons q a' =>
      obtain ⟨s₁, v₁⟩ := q
      simp only [crossProduct, List.mem_flatten, List.mem_map, conforms]
      constructor
      · rintro ⟨l, ⟨v, hv, rfl⟩, hl⟩
        simp only [List.mem_map] at hl
        obtain ⟨b, hb, hba⟩ := hl
        injection hba with h1 h2
        injection h1 with hs hvv
        exact ⟨hs.symm, hvv ▸ hv, h2 ▸ (ih b).mp hb⟩
      · rintro ⟨hs, hv, hcf⟩
        exact ⟨(crossProduct rest).map fun b => (s, v₁) :: b, ⟨v₁, hv, rfl⟩,
          List.mem_map.mpr ⟨a', (ih a').mpr hcf, by rw [hs]⟩⟩

/-- C1: the Parameter Space Generator yields exactly the constraint-filtered
cross-product: an assignment is yielded iff it conforms to the declared
parameter domains (it lies in the cross-product) and every constraint
evaluates true on it.  `generate` is a pure function of the `TuningSpec`,
so a full traversal yields the same filtered set for the same spec. -/
theorem generate_exact (spec : TuningSpec) (a : Assignment) :
    a ∈ generate spec
      ↔ conforms a spec.parameters ∧ ∀ c ∈ spec.constraints, c a = true := by
  rw [generate, List.mem_filter, mem_crossProduct]
  simp [List.all_eq_true]

/-! ## Search Driver: best-so-far selection (modelled from the spec)

Modelled from the spec: a `Measurement` records an assignment, its
aggregate time and whether the build/run failed; the `Updating` transition
compares a new measurement against the best-so-far: lower aggregate time
wins, ties keep the earlier-found assignment, and a failed measurement is
recorded in the history but never becomes best. -/

structure Measurement where
  assignment : Assignment
  aggregate : ℚ
  failed : Bool
deriving DecidableEq

/-- Modelled from the spec: the `Updating` transition.  A failed
measurement never becomes best; otherwise a strictly lower aggregate time
replaces the best-so-far and a tie keeps the earlier-found one. -/
def updateBest (best : Option Measurement) (m : Measurement) : Option Measurement :=
  if m.failed then best
  else
    match best with
    | none => some m
    | some b => if m.aggregate < b.aggregate then some m else some b

/-- The winner selected after a completed search whose recorded history is
`history`, obtained by folding `updateBest` from no best-so-far. -/
def selectBest (history : List Measurement) : Option Measurement :=
  history.foldl updateBest none

/-- The update `updateBest` restricted to non-failed measurements. -/
def firstMin (best : Option Measurement) (m : Measurement) : Option Measurement :=
  match best with
  | none => some m
  | some b => if m.aggregate < b.aggregate then some m else some b

/-- The measurement `b` is the earliest minimal element of `l`: everything recorded before
it has strictly larger aggregate time and nothing after beats it. -/
def EarliestMinIn (b : Measurement) (l : List Measurement) : Prop :=
  ∃ pre post, l = pre ++ b :: post
    ∧ (∀ m ∈ pre, b.aggregate < m.aggregate)
    ∧ (∀ m ∈ post, b.aggregate ≤ m.aggregate)

theorem foldl_updateBest_eq (l : List Measurement) (acc : Option Measurement) :
    l.foldl updateBest acc = (l.filter fun m => !m.failed).foldl firstMin acc := by
  induction l generalizing acc with
  | nil => rfl
  | cons m rest ih =>
    by_cases hm : m.failed
    · simp [updateBest, hm, List.filter_cons, ih]
    · simp only [List.foldl_cons, List.filter_cons]
      rw [ih]
      simp [updateBest, firstMin, hm]

theorem foldl_firstMin_some (l : List Measurement) (b0 : Measurement) :
    ∃ b, l.foldl firstMin (some b0) = some b
      ∧ ((b = b0 ∧ ∀ m ∈ l, b0.aggregate ≤ m.aggregate)
        ∨ (EarliestMinIn b l ∧ b.aggregate < b0.aggregate)) := by
  induction l generalizing b0 with
  | nil => exact ⟨b0, rfl, Or.inl ⟨rfl, by simp⟩⟩
  | cons m rest ih =>
    by_cases hlt : m.aggregate < b0.aggregate
    · obtain ⟨b, hb, hcase⟩ := ih m
      refine ⟨b, by simpa [firstMin, hlt] using hb, Or.inr ?_⟩
      rcases hcase with ⟨rfl, hall⟩ | ⟨⟨pre, post, rfl, hpre, hpost⟩, hbm⟩
      · exact ⟨⟨[], rest, rfl, by simp, hall⟩, hlt⟩
      · refine ⟨⟨m :: pre, post, rfl, ?_, hpost⟩, hbm.trans hlt⟩
        intro m' hm'
        rcases List.mem_cons.mp hm' with rfl | hm'
        · exact hbm
        · exact hpre m' hm'
    · obtain ⟨b, hb, hcase⟩ := ih b0
      refine ⟨b, by simpa [firstMin, hlt] using hb, ?_⟩
      rcases hcase with ⟨rfl, hall⟩ | ⟨⟨pre, post, rfl, hpre, hpost⟩, hbb⟩
      · refine Or.inl ⟨rfl, ?_⟩
        intro m' hm'
        rcases List.mem_cons.mp hm' with rfl | hm'
        · exact le_of_not_lt hlt
        · exact hall m' hm'
      · refine Or.inr ⟨⟨m :: pre, post, rfl, ?_, hpost⟩, hbb⟩
        intro m' hm'
        rcases List.mem_cons.mp hm' with rfl | hm'
        · exact hbb.trans_le (le_of_not_lt hlt)
        · exact hpre m' hm'

theorem foldl_firstMin_earliest (l : List Measurement) (b : Measurement)
    (h : l.foldl firstMin none = some b) : EarliestMinIn b l := by
  cases l with
  | nil => exact absurd h (by simp)
  | cons m rest =>
    obtain ⟨b', hb', hcase⟩ := foldl_firstMin_some rest m
    have hmb : b' = b := by
      have : rest.foldl firstMin (some m) = some b := by
        simpa [firstMin] using h
      exact Option.some.inj (hb' ▸ this)
    subst hmb
    rcases hcase with ⟨rfl, hall⟩ | ⟨⟨pre, post, rfl, hpre, hpost⟩, hbm⟩
    · exact ⟨[], rest, rfl, by simp, hall⟩
    · refine ⟨m :: pre, post, rfl, ?_, hpost⟩
      intro m' hm'
      rcases List.mem_cons.mp hm' with rfl | hm'
      · exact hbm
      · exact hpre m' hm'

theorem selectBest_eq_none_iff (history : List Measurement) :
    selectBest history = none ↔ ∀ m ∈ history, m.failed = true := by
  rw [selectBest, foldl_updateBest_eq]
  constructor
  · intro h m hm
    by_contra hf
    have hmem : m ∈ history.filter fun m => !m.failed := by
      simp [List.mem_filter, hm, hf]
    cases hfl : history.filter fun m => !m.failed with
    | nil => rw [hfl] at hmem; exact absurd hmem (by simp)
    | cons m0 rest =>
      rw [hfl] at h
      obtain ⟨b, hb, _⟩ := foldl_firstMin_some rest m0
      rw [List.foldl_cons] at h
      have : firstMin none m0 = some m0 := rfl
      rw [this, hb] at h
      exact absurd h (by simp)
  · intro h
    have : (history.filter fun m => !m.failed) = [] := by
      rw [List.filter_eq_nil_iff]
      intro m hm
      simp [h m hm]
    rw [this]
    rfl

theorem selectBest_some_spec (history : List Measurement) (b : Measurement)
    (h : selectBest history = some b) :
    b.failed = false ∧ EarliestMinIn b (history.filter fun m => !m.failed) := by
  rw [selectBest, foldl_updateBest_eq] at h
  have hmin := foldl_firstMin_earliest _ b h
  obtain ⟨pre, post, heq, -, -⟩ := id hmin
  have hb : b ∈ history.filter fun m => !m.failed := by
    rw [heq]; exact List.mem_append_right _ (List.mem_cons_self _ _)
  have := (List.mem_filter.mp hb).2
  exact ⟨by simpa using this, hmin⟩

/-- C2: the winner of a completed search is the earliest-recorded candidate
among the non-failed measurements with minimal aggregate time: no winner
exists iff every recorded measurement failed; otherwise the winner is
non-failed, every non-failed measurement recorded before it has strictly
larger aggregate time (a tie keeps the earlier-found assignment) and none
recorded after it has smaller aggregate time.  The fold processes the whole
history, so a failed measurement is recorded but never aborts the search. -/
theorem selectBest_spec (history : List Measurement) :
    (selectBest history = none ↔ ∀ m ∈ history, m.failed = true)
      ∧ ∀ b, selectBest history = some b →
          b.failed = false
            ∧ EarliestMinIn b (history.filter fun m => !m.failed) :=
  ⟨selectBest_eq_none_iff history, fun b h => selectBest_some_spec history b h⟩

/-! ## Search Driver: overall run result (modelled from the spec)

Modelled from the spec: the overall run measures every chosen candidate
(a per-candidate failure is isolated to that candidate) and reports
`NoViableVariantError` when every candidate failed, rather than silently
returning the unmodified baseline. -/

inductive RunError where
  | noViableVariant
deriving DecidableEq

/-- Modelled from the spec: the result of a whole run over the candidate
list — every candidate is measured (one in-flight measurement at a time,
failures isolated), then the winner is selected; if no candidate succeeded
the run reports `NoViableVariantError` instead of a result. -/
def runResult (measure : Assignment → Measurement)
    (cands : List Assignment) : Except RunError Measurement :=
  match selectBest (cands.map measure) with
  | none => .error .noViableVariant
  | some b => .ok b

/-- C5: when every measured candidate fails the run reports
`NoViableVariantError` (never a silently-returned baseline variant), and
conversely, as long as at least one candidate succeeds, per-candidate
failures never abort the run: it returns a non-failed winner. -/
theorem runResult_spec (measure : Assignment → Measurement)
    (cands : List Assignment) :
    ((∀ a ∈ cands, (measure a).failed = true)
        → runResult measure cands = .error .noViableVariant)
      ∧ ((∃ a ∈ cands, (measure a).failed = false)
        → ∃ b, runResult measure cands = .ok b ∧ b.failed = false) := by
  constructor
  · intro h
    have : selectBest (cands.map measure) = none := by
      rw [selectBest_eq_none_iff]
      intro m hm
      obtain ⟨a, ha, rfl⟩ := List.mem_map.mp hm
      exact h a ha
    simp [runResult, this]
  · rintro ⟨a, ha, hfa⟩
    cases hsel : selectBest (cands.map measure) with
    | none =>
      rw [selectBest_eq_none_iff] at hsel
      exact absurd (hsel (measure a) (List.mem_map_of_mem measure ha)) (by simp [hfa])
    | some b =>
      obtain ⟨hbf, -⟩ := selectBest_some_spec _ b hsel
      exact ⟨b, by simp [runResult, hsel], hbf⟩

/-! ## Search Driver: state machine and termination (modelled from the spec)

Modelled from the spec: the driver is the state machine
`Generating → Measuring → Updating → (Generating | Converged)` with a
trial-count budget; `Generating` pulls the next candidate, `Measuring`
produces a `Measurement` via the external collaborators, `Updating`
compares it against the best-so-far, and `Converged` is terminal (budget
exhausted or candidate stream empty). -/

inductive Phase where
  | generating
  | measuring
  | updating
  | converged
deriving DecidableEq

structure DriverState where
  phase : Phase
  budget : ℕ
  pending : List Assignment
  history : List Measurement
  best : Option Measurement
deriving DecidableEq

/-- Modelled from the spec: one transition of the Search Driver.
`Converged` is absorbing; `Generating` converges when the budget is
exhausted or no candidate remains, otherwise moves to `Measuring`, which
consumes one candidate, decrements the budget and records its
`Measurement`; `Updating` folds the new measurement into the best-so-far
and returns to `Generating`. -/
def driverStep (measure : Assignment → Measurement) (st : DriverState) : DriverState :=
  match st.phase with
  | .converged => st
  | .generating =>
      match st.budget, st.pending with
      | 0, _ => { st with phase := .converged }
      | _ + 1, [] => { st with phase := .converged }
      | _ + 1, _ :: _ => { st with phase := .measuring }
  | .measuring =>
      match st.pending with
      | [] => { st with phase := .converged }
      | a :: rest =>
          { st with
              phase := .updating
              pending := rest
              budget := st.budget - 1
              history := st.history ++ [measure a] }
  | .updating =>
      { st with
          phase := .generating
          best :=
            match st.history.getLast? with
            | none => st.best
            | some m => updateBest st.best m }

/-- The initial driver state for a budget of `B` trials over the candidate
stream `cands`. -/
def driverInit (B : ℕ) (cands : List Assignment) : DriverState :=
  { phase := .generating, budget := B, pending := cands, history := [], best := none }

theorem driverStep_converged (measure : Assignment → Measurement)
    (st : DriverState) (h : st.phase = .converged) (k : ℕ) :
    (driverStep measure)^[k] st = st := by
  apply Function.iterate_fixed
  rw [driverStep, h]

theorem driver_iterate_spec (measure : Assignment → Measurement) (B : ℕ) :
    ∀ (cands : List Assignment) (hist : List Measurement)
      (best : Option Measurement),
      ((driverStep measure)^[3 * B + 2]
          { phase := .generating, budget := B, pending := cands,
            history := hist, best := best }).phase = .converged
        ∧ ((driverStep measure)^[3 * B + 2]
            { phase := .generating, budget := B, pending := cands,
              history := hist, best := best }).history.length
          ≤ hist.length + B := by
  induction B with
  | zero =>
    intro cands hist best
    have h1 : driverStep measure
        { phase := .generating, budget := 0, pending := cands,
          history := hist, best := best }
        = { phase := .converged, budget := 0, pending := cands,
            history := hist, best := best } := rfl
    have : (driverStep measure)^[3 * 0 + 2]
        { phase := .generating, budget := 0, pending := cands,
          history := hist, best := best }
        = { phase := .converged, budget := 0, pending := cands,
            history := hist, best := best } := by
      show (driverStep measure)^[2] _ = _
      rw [Function.iterate_succ_apply, h1,
        driverStep_converged measure _ rfl]
    rw [this]
    exact ⟨rfl, by simp⟩
  | succ B ih =>
    intro cands hist best
    cases cands with
    | nil =>
      have h1 : driverStep measure
          { phase := .generating, budget := B + 1, pending := [],
            history := hist, best := best }
          = { phase := .converged, budget := B + 1, pending := [],
              history := hist, best := best } := rfl
      have : (driverStep measure)^[3 * (B + 1) + 2]
          { phase := .generating, budget := B + 1, pending := [],
            history := hist, best := best }
          = { phase := .converged, budget := B + 1, pending := [],
              history := hist, best := best } := by
        rw [show 3 * (B + 1) + 2 = (3 * B + 4) + 1 by ring,
          Function.iterate_succ_apply, h1,
          driverStep_converged measure _ rfl]
      rw [this]
      exact ⟨rfl, by simp⟩
    | cons a rest =>
      have h3 : (driverStep measure)^[3]
          { phase := .generating, budget := B + 1, pending := a :: rest,
            history := hist, best := best }
          = { phase := .generating, budget := B, pending := rest,
              history := hist ++ [measure a],
              best :=
                match (hist ++ [measure a]).getLast? with
                | none => best
                | some m => updateBest best m } := by
        rfl
      have hsplit : 3 * (B + 1) + 2 = (3 * B + 2) + 3 := by ring
      rw [hsplit, Function.iterate_add_apply, h3]
      obtain ⟨h1, h2⟩ := ih rest (hist ++ [measure a]) _
      refine ⟨h1, ?_⟩
      calc _ ≤ (hist ++ [measure a]).length + B := h2
    _ = hist.length + (B + 1) := by simp; ring

/-- C4: for a fixed trial-count budget `B` the Search Driver reaches the
`Converged` state after finitely many steps (`3 * B + 2` transitions
suffice from the initial state) and performs at most `B` candidate
measurements, whatever the candidate stream and the measurement outcomes —
in particular also when every measured candidate has `failed = true`. -/
theorem driver_terminates (measure : Assignment → Measurement) (B : ℕ)
    (cands : List Assignment) :
    ((driverStep measure)^[3 * B + 2] (driverInit B cands)).phase = .converged
      ∧ ((driverStep measure)^[3 * B + 2] (driverInit B cands)).history.length ≤ B := by
  obtain ⟨h1, h2⟩ := driver_iterate_spec measure B cands [] none
  exact ⟨h1, by simpa using h2⟩

/-! ## Spec loading: undeclared-symbol check (modelled from the spec)

Modelled from the spec: every symbol referenced by a constraint or by a
loop-transform directive must exist in `parameters`; a violation is a
load-time `SpecSemanticError`, raised before any candidate assignment is
generated.  A raw spec is summarized by its declared parameter symbols and
the tunable symbols referenced by each constraint and each directive
(let-bound constants such as `RANGE` and `BSIZE` are host-level values,
not tunable parameter symbols). -/

inductive SpecError where
  | specSemanticError
deriving DecidableEq

structure RawSpec where
  declared : List Symbol
  constraintRefs : List (Symbol × List Symbol)
  directiveRefs : List (Symbol × List Symbol)
deriving DecidableEq

/-- The referenced tunable symbols missing from the declared parameters. -/
def undeclaredRefs (r : RawSpec) : List Symbol :=
  ((r.constraintRefs ++ r.directiveRefs).map Prod.snd).flatten.filter
    fun s => !r.declared.contains s

/-- Modelled from the spec: the load-time check of the Spec Parser /
Loop-Nest Model Builder: loading fails with `SpecSemanticError` exactly
when some constraint or directive references an undeclared symbol. -/
def loadCheck (r : RawSpec) : Except SpecError Unit :=
  match undeclaredRefs r with
  | [] => .ok ()
  | _ :: _ => .error .specSemanticError

/-- Modelled from the spec: candidate assignments are generated only after
the load-time check succeeds; a semantic error is reported before any
candidate is produced. -/
def loadThenGenerate (r : RawSpec) (spec : TuningSpec) :
    Except SpecError (List Assignment) :=
  match loadCheck r with
  | .error e => .error e
  | .ok () => .ok (generate spec)

/-- The parameter symbols declared by `def performance_params` of
haxpy3.ancc.c (lines 16-47). -/
def haxpy3Declared : List Symbol :=
  ["R", "T_I", "T_J", "ACOPY_Y", "ACOPY_X0", "ACOPY_X1", "ACOPY_X2",
   "U1i", "U1j", "SCREP", "VEC", "OMP"]

/-- The tunable symbols referenced by each constraint of haxpy3.ancc.c
(lines 36-46); `reg_capacity` references `U_I` and `U_J`. -/
def haxpy3ConstraintRefs : List (Symbol × List Symbol) :=
  [("reg_capacity", ["U_I", "U_J"]),
   ("copy_limitY", ["ACOPY_Y", "T_I", "T_J", "R"]),
   ("copy_limitX0", ["ACOPY_X0", "T_I", "T_J", "R"]),
   ("copy_limitX1", ["ACOPY_X1", "T_I", "T_J", "R"]),
   ("copy_limitX2", ["ACOPY_X2", "T_I", "T_J", "R"]),
   ("copy_limit", ["ACOPY_Y", "ACOPY_X0", "ACOPY_X1", "ACOPY_X2"])]

/-- The tunable symbols referenced by each transform directive of the
`Loop` region of haxpy3.ancc.c (lines 81-94); the two `UnrollJam`
directives reference `PAR1i` and `PAR1j`. -/
def haxpy3DirectiveRefs : List (Symbol × List Symbol) :=
  [("Composite",
    ["T_I", "T_J", "ACOPY_Y", "ACOPY_X0", "ACOPY_X1", "ACOPY_X2", "R",
     "SCREP", "VEC", "OMP"]),
   ("UnrollJam_i", ["U1i", "PAR1i"]),
   ("UnrollJam_j", ["U1j", "PAR1j"])]

/-- The haxpy3.ancc.c tuning spec, summarized for the load-time check. -/
def haxpy3Raw : RawSpec :=
  { declared := haxpy3Declared
    constraintRefs := haxpy3ConstraintRefs
    directiveRefs := haxpy3DirectiveRefs }

theorem loadCheck_error_of_undeclared (r : RawSpec) (name s : Symbol)
    (syms : List Symbol) (hmem : (name, syms) ∈ r.constraintRefs ++ r.directiveRefs)
    (hs : s ∈ syms) (hnd : s ∉ r.declared) :
    loadCheck r = .error .specSemanticError := by
  have hflat : s ∈ ((r.constraintRefs ++ r.directiveRefs).map Prod.snd).flatten :=
    List.mem_flatten.mpr ⟨syms, List.mem_map.mpr ⟨(name, syms), hmem, rfl⟩, hs⟩
  have hmemf : s ∈ undeclaredRefs r := by
    rw [undeclaredRefs, List.mem_filter]
    exact ⟨hflat, by simpa using hnd⟩
  rw [loadCheck]
  cases hu : undeclaredRefs r with
  | nil => rw [hu] at hmemf; exact absurd hmemf (by simp)
  | cons _ _ => rfl

/-- C3: a tuning spec in which a constraint or a loop-transform directive
references a symbol not declared in the parameters fails to load with
`SpecSemanticError`, before any candidate assignment is generated; in
particular the haxpy3 fixture — whose `reg_capacity` constraint references
`U_I` and `U_J` and whose `UnrollJam` directives reference `PAR1i` and
`PAR1j`, none declared in `performance_params` — is rejected at load time
and never yields a candidate. -/
theorem load_rejects_undeclared :
    (∀ (r : RawSpec) (name s : Symbol) (syms : List Symbol),
        (name, syms) ∈ r.constraintRefs ++ r.directiveRefs → s ∈ syms →
        s ∉ r.declared →
        loadCheck r = .error .specSemanticError
          ∧ ∀ spec, loadThenGenerate r spec = .error .specSemanticError)
      ∧ undeclaredRefs haxpy3Raw = ["U_I", "U_J", "PAR1i", "PAR1j"]
      ∧ loadCheck haxpy3Raw = .error .specSemanticError
      ∧ ∀ spec, loadThenGenerate haxpy3Raw spec = .error .specSemanticError := by
  refine ⟨?_, by rfl, by rfl, fun spec => by rfl⟩
  intro r name s syms hmem hs hnd
  have h := loadCheck_error_of_undeclared r name s syms hmem hs hnd
  exact ⟨h, fun spec => by rw [loadThenGenerate, h]⟩

/-! ## Transformation Engine (modelled from the spec)

Modelled from the spec: the loop-nest tree and the directive kinds the
fixtures use.  Each directive, when its governing boolean parameter binds
to false (or its numeric factor binds to its identity value 1, as in
`param U1i[] = [1]`), is a no-op passing the tree through unchanged;
tiling strip-mines a loop into a loop over tiles containing the intra-tile
loop, and unrolling replicates the loop body `u` times inside the loop. -/

inductive Mark where
  | copy
  | screp
  | vec
  | omp
deriving DecidableEq

/-- An abstract loop-nest tree: a straight-line statement (of a given
size), a counted loop around a body, the sequencing of two fragments, and
a pragma-style decoration added by a flag-governed directive. -/
inductive Tree where
  | stmt : ℕ → Tree
  | loop : Tree → Tree
  | seq : Tree → Tree → Tree
  | mark : Mark → Tree → Tree
deriving DecidableEq

/-- A sequence of `u` copies of a body (`bodyCopies u b` for `u ≥ 1`). -/
def bodyCopies : ℕ → Tree → Tree
  | 0, b => b
  | 1, b => b
  | u + 2, b => Tree.seq b (bodyCopies (u + 1) b)

inductive Directive where
  | tile : ℕ → Directive
  | unroll : ℕ → Directive
  | arrayCopy : Bool → Directive
  | scalarReplace : Bool → Directive
  | vectorize : Bool → Directive
  | threadParallelize : Bool → Directive
deriving DecidableEq

/-- Modelled from the spec: the action of one directive on the tree.
A tile size or unroll factor of `1` and a false boolean flag are
identities; a tile size `t > 1` strip-mines the outer loop, an unroll
factor `u > 1` replicates the loop body `u` times, and the flag-governed
directives decorate the tree. -/
def applyDirective : Directive → Tree → Tree
  | .tile t, tr =>
      if t ≤ 1 then tr
      else
        match tr with
        | .loop b => .loop (.loop b)
        | x => x
  | .unroll u, tr =>
      if u ≤ 1 then tr
      else
        match tr with
        | .loop b => .loop (bodyCopies u b)
        | x => x
  | .arrayCopy f, tr => if f then .mark .copy tr else tr
  | .scalarReplace f, tr => if f then .mark .screp tr else tr
  | .vectorize f, tr => if f then .mark .vec tr else tr
  | .threadParallelize f, tr => if f then .mark .omp tr else tr

/-- The Transformation Engine: the nest's directive list applied in order. -/
def applyAll (ds : List Directive) (tr : Tree) : Tree :=
  ds.foldl (fun t d => applyDirective d t) tr

/-- A directive bound to its identity value: boolean flags false, numeric
factors 1 (the identity tile size / unroll factor). -/
def Directive.isIdentity : Directive → Bool
  | .tile t => decide (t ≤ 1)
  | .unroll u => decide (u ≤ 1)
  | .arrayCopy f => !f
  | .scalarReplace f => !f
  | .vectorize f => !f
  | .threadParallelize f => !f

/-- The Code Generator's rendering of a tree as host-language text. -/
def render : Tree → List Char
  | .stmt n => 'S' :: List.replicate n 'x'
  | .loop b => 'L' :: '(' :: (render b ++ [')'])
  | .seq a b => ';' :: (render a ++ render b)
  | .mark _ b => 'P' :: render b

theorem applyDirective_identity (d : Directive) (tr : Tree)
    (h : d.isIdentity = true) : applyDirective d tr = tr := by
  cases d with
  | tile t =>
      have : t ≤ 1 := by simpa [Directive.isIdentity] using h
      simp [applyDirective, this]
  | unroll u =>
      have : u ≤ 1 := by simpa [Directive.isIdentity] using h
      simp [applyDirective, this]
  | arrayCopy f =>
      have : f = false := by simpa [Directive.isIdentity] using h
      simp [applyDirective, this]
  | scalarReplace f =>
      have : f = false := by simpa [Directive.isIdentity] using h
      simp [applyDirective, this]
  | vectorize f =>
      have : f = false := by simpa [Directive.isIdentity] using h
      simp [applyDirective, this]
  | threadParallelize f =>
      have : f = false := by simpa [Directive.isIdentity] using h
      simp [applyDirective, this]

/-- C6: binding the identity assignment (every boolean directive flag
false, numeric factors at their identity value 1) makes each directive a
no-op, so the whole directive list passes the tree through unchanged and
rendering the identity-bound nest reproduces exactly the text of the
pristine, untransformed loop nest. -/
theorem identity_assignment_noop (ds : List Directive) (tr : Tree)
    (h : ∀ d ∈ ds, d.isIdentity = true) :
    applyAll ds tr = tr ∧ render (applyAll ds tr) = render tr := by
  have key : applyAll ds tr = tr := by
    induction ds generalizing tr with
    | nil => rfl
    | cons d rest ih =>
        rw [applyAll, List.foldl_cons,
          applyDirective_identity d tr (h d (List.mem_cons_self d rest))]
        exact ih tr fun d' hd' => h d' (List.mem_cons_of_mem d hd')
  exact ⟨key, by rw [key]⟩

/-- Witness for C6: the haxpy3-shaped directive list bound with the
identity assignment leaves the two-deep loop nest unchanged. -/
theorem identity_assignment_noop_witness :
    applyAll
        [.tile 1, .arrayCopy false, .scalarReplace false, .unroll 1,
         .vectorize false, .threadParallelize false]
        (.loop (.loop (.stmt 3)))
      = .loop (.loop (.stmt 3)) :=
  (identity_assignment_noop
    [.tile 1, .arrayCopy false, .scalarReplace false, .unroll 1,
     .vectorize false, .threadParallelize false]
    (.loop (.loop (.stmt 3))) (by decide)).1

/-- C7: with both factors exceeding 1, applying Tile then Unroll gives a
tree whose shape differs structurally from applying Unroll then Tile: the
first unrolls the intra-tile loop inside the tile loop, the second tiles
the already-replicated body, so the two compositions never coincide. -/
theorem tile_unroll_noncommute (b : Tree) (t u : ℕ) (ht : 1 < t) (hu : 1 < u) :
    applyAll [.tile t, .unroll u] (.loop b)
      ≠ applyAll [.unroll u, .tile t] (.loop b) := by
  obtain ⟨k, rfl⟩ : ∃ k, u = k + 2 := ⟨u - 2, by omega⟩
  have hnt : ¬ t ≤ 1 := by omega
  have hnu : ¬ k + 2 ≤ 1 := by omega
  have htile : ∀ x : Tree, applyDirective (.tile t) (.loop x) = .loop (.loop x) := by
    intro x
    rw [applyDirective, if_neg hnt]
  have hunroll : ∀ x : Tree,
      applyDirective (.unroll (k + 2)) (.loop x)
        = .loop (.seq x (bodyCopies (k + 1) x)) := by
    intro x
    rw [applyDirective, if_neg hnu]
    rfl
  have h1 : applyAll [.tile t, .unroll (k + 2)] (.loop b)
      = .loop (.seq (.loop b) (bodyCopies (k + 1) (.loop b))) := by
    show applyDirective (.unroll (k + 2)) (applyDirective (.tile t) (.loop b))
      = _
    rw [htile, hunroll]
  have h2 : applyAll [.unroll (k + 2), .tile t] (.loop b)
      = .loop (.loop (.seq b (bodyCopies (k + 1) b))) := by
    show applyDirective (.tile t) (applyDirective (.unroll (k + 2)) (.loop b))
      = _
    rw [hunroll, htile]
  rw [h1, h2]
  intro hcontra
  exact absurd (Tree.loop.inj hcontra) (by simp)

/-- Witness for C7: at factors 2 and 2 on a single-statement loop the two
compositions produce different trees. -/
theorem tile_unroll_noncommute_witness :
    applyAll [.tile 2, .unroll 2] (.loop (.stmt 0))
      ≠ applyAll [.unroll 2, .tile 2] (.loop (.stmt 0)) :=
  tile_unroll_noncommute (.stmt 0) 2 2 (by decide) (by decide)

/-! ## Code Generator: splicing into the host source (modelled from the
spec)

Modelled from the spec: the Code Generator renders the bound loop-nest
tree and splices the rendered text back in place of the located annotated
region, leaving everything outside that span byte-identical to the
input. -/

/-- Replace the `len` bytes starting at offset `start` with `repl`. -/
def splice (src : List Char) (start len : ℕ) (repl : List Char) : List Char :=
  src.take start ++ repl ++ src.drop (start + len)

/-- Modelled from the spec: the Code Generator on a host source whose
located annotation span splits it as `pre ++ region ++ suf`, with the
bound tree `tr` rendered in place of the annotated region. -/
def codeGen (pre region suf : List Char) (tr : Tree) : List Char :=
  splice (pre ++ region ++ suf) pre.length region.length (render tr)

/-- C8: the Code Generator's output replaces only the located annotation
span: for every host source split as `pre ++ region ++ suf` by the located
span and every bound tree, the output is `pre ++ render tr ++ suf`, so all
text outside the annotated region — the prefix and the suffix — is
unchanged byte for byte. -/
theorem codeGen_frame (pre region suf : List Char) (tr : Tree) :
    codeGen pre region suf tr = pre ++ render tr ++ suf
      ∧ (codeGen pre region suf tr).take pre.length = pre
      ∧ (codeGen pre region suf tr).drop (pre.length + (render tr).length)
          = suf := by
  have h1 : List.take pre.length ((pre ++ region) ++ suf) = pre := by
    rw [List.append_assoc]
    exact List.take_left pre (region ++ suf)
  have h2 : List.drop (pre.length + region.length) ((pre ++ region) ++ suf) = suf := by
    rw [List.append_assoc, List.drop_append region.length]
    exact List.drop_left region suf
  have hmain : codeGen pre region suf tr = pre ++ render tr ++ suf := by
    rw [codeGen, splice, h1, h2]
  refine ⟨hmain, ?_, ?_⟩
  · rw [hmain, List.append_assoc]
    exact List.take_left pre (render tr ++ suf)
  · rw [hmain, List.append_assoc, List.drop_append (render tr).length]
    exact List.drop_left (render tr) suf

/-- C9: the annotated loop body and the fallback baseline loop body of
haxpy3.ancc.c compute the same value of `Y[i][j]` for every `i`, `j` and
every input, when the `double` arithmetic is read exactly over `ℚ`. -/
theorem haxpy3_bodies_equal (a0 a1 a2 b00 b01 b02 b11 b12 b22 : ℚ)
    (X0 X1 X2 : ℕ → ℕ → ℚ) (u0 u1 u2 : ℕ → ℚ) (i j : ℕ) :
    annotBody a0 a1 a2 b00 b01 b02 b11 b12 b22 X0 X1 X2 u0 u1 u2 i j
      = baselineBody a0 a1 a2 b00 b01 b02 b11 b12 b22 X0 X1 X2 u0 u1 u2 i j := by
  unfold annotBody baselineBody
  ring

end Orio
